import Mathlib

/-!
Verification development for the hpc-qc-mini-labs OpenMP lab programs
(`omp_00_warmup.cpp`, `omp_01_amdahl.cpp`, `omp_02_mutex_bottleneck.cpp`).

The C++ sources are shallowly embedded here:
* the numeric workloads `serial_work` / `parallel_work` become functions on
  `ℤ`/`ℝ` (idealised exact real arithmetic in place of IEEE doubles; the loop
  bodies and the OpenMP `schedule(static)` contiguous partitioning are kept);
* the mutex-bottleneck parallel region becomes an interleaved transition
  system over per-worker program counters and an explicit lock;
* the warmup probe's per-worker output becomes a list of
  (worker id, thread count) pairs, quantified over all interleavings
  (permutations);
* the straight-line structure of each `main` becomes a list of events feeding
  a run-state machine, and wall-clock instants become a monotone time stamp
  for each event position.
-/

namespace OmpLabs

/-! ## Workload functions (omp_01_amdahl.cpp) -/

/-- The constant `1e-6` scaling the loop index in both workload bodies,
read at ideal real precision. -/
noncomputable def eps : ℝ := 1 / 1000000

/-- The accumulation loop `for (i = a; i < a + len; i++) s += f(i);` with
accumulator `s`: indices are consumed one at a time in strict ascending
order, exactly as the C++ loops do. -/
def accumLoop {α : Type} [AddCommMonoid α] (f : ℕ → α) : ℕ → ℕ → α → α
  | _, 0, s => s
  | a, len + 1, s => accumLoop f (a + 1) len (s + f a)

/-- The accumulation loop started from `s = 0`, covering the `len` indices
`a, a+1, ..., a+len-1`. -/
def accumFrom {α : Type} [AddCommMonoid α] (f : ℕ → α) (a len : ℕ) : α :=
  accumLoop f a len 0

/-- Embedding of `serial_work(n)` from omp_01_amdahl.cpp: accumulates `sin(i * 1e-6)` over
`i = 0, 1, ..., n-1` on a single thread in strict ascending index order
(`volatile` only discourages compiler optimisation; the accumulation itself is
this fold). A non-positive `n` runs the loop zero times. The IEEE doubles of
the source are idealised as exact reals, which is why the definition is not
executable. -/
noncomputable def serial_work (n : ℤ) : ℝ :=
  accumFrom (fun i => Real.sin (i * eps)) 0 n.toNat

/-- The serial workload as executed under an ambient configured thread count
`T`: the source function never reads the thread count, so `T` does not occur
on the right-hand side. -/
noncomputable def serialWorkUnder (T : ℕ) (n : ℤ) : ℝ := serial_work n

/-- Start of the `t`-th worker's contiguous subrange when an iteration space
of `n` indices is divided over `T` workers by OpenMP `schedule(static)`:
the first `n % T` workers get `n / T + 1` iterations, the rest `n / T`. -/
def chunkStart (n T t : ℕ) : ℕ := t * (n / T) + min t (n % T)

/-- Number of iterations assigned to worker `t` under `schedule(static)`. -/
def chunkSize (n T t : ℕ) : ℕ := chunkStart n T (t + 1) - chunkStart n T t

/-- Embedding of `parallel_work(n)` from omp_01_amdahl.cpp as executed by `T` workers:
`#pragma omp parallel for reduction(+:s) schedule(static)` gives each worker a
contiguous subrange of `0..n-1`; each worker accumulates `cos(i * 1e-6)` over
its subrange into a private sum, and the `T` private sums are combined by the
`+` reduction (order-insensitive, modelled by the finite sum over workers). -/
noncomputable def parallel_work (T : ℕ) (n : ℤ) : ℝ :=
  ∑ t in Finset.range T,
    accumFrom (fun i => Real.cos (i * eps)) (chunkStart n.toNat T t) (chunkSize n.toNat T t)

/-! ## Thread context probe (omp_00_warmup.cpp) -/

/-- The reports emitted inside the warmup parallel region in their canonical
order: each of the `T` workers executes `printf("Hello from thread %d of %d",
tid, nt)` exactly once under `#pragma omp critical`, with `tid` ranging over
the worker ids `0..T-1` and `nt = T`. An actual run emits some permutation of
this list. -/
def probeList (T : ℕ) : List (ℕ × ℕ) :=
  (List.range T).map (fun k => (k, T))

/-! ## Critical-resource simulator (omp_02_mutex_bottleneck.cpp)

The parallel region of omp_02 is embedded as an interleaved transition system:
`W` workers each loop over their statically assigned chunk of the `iters`
iterations; in every iteration a worker sleeps through the parallel phase,
then acquires the `#pragma omp critical` lock, sleeps through the serialized
phase, and releases the lock. The lock is explicit in the state; sleeping has
no state effect beyond advancing the worker's program counter. -/

/-- Constant `iters` from omp_02_mutex_bottleneck.cpp: total loop iterations. -/
def iters : ℕ := 200

/-- Constant `parallel_ms` from omp_02_mutex_bottleneck.cpp: duration (ms) of the
unsynchronised phase of one iteration. -/
noncomputable def parallel_ms : ℝ := 2

/-- Constant `serial_ms` from omp_02_mutex_bottleneck.cpp: duration (ms) of the locked
(serialized) phase of one iteration. -/
noncomputable def serial_ms : ℝ := 5

/-- Where a worker is inside its current iteration: in the parallel phase,
waiting to enter the critical section, or inside the critical section. -/
inductive CPhase where
  | par
  | wait
  | crit
deriving DecidableEq

/-- A worker's program counter: how many of its assigned iterations are still
to be completed (its current one included), and its phase in the current
iteration. `remaining = 0` means the worker has reached the barrier. -/
structure WorkerSt where
  remaining : ℕ
  phase : CPhase
deriving DecidableEq

/-- A state of the interleaved execution of the omp_02 parallel region with
`W` workers: each worker's program counter plus the critical-section lock
(`none` when free, `some w` while worker `w` holds it). -/
structure SimSt (W : ℕ) where
  pc : Fin W → WorkerSt
  lock : Option (Fin W)

/-- One interleaving step of the omp_02 parallel region: some worker finishes
its parallel-phase sleep, or acquires the free critical-section lock, or
finishes the serialized sleep and releases the lock, completing an
iteration. -/
inductive SimStep (W : ℕ) : SimSt W → SimSt W → Prop where
  | finishPar (s : SimSt W) (w : Fin W) (r : ℕ)
      (h : s.pc w = ⟨r + 1, CPhase.par⟩) :
      SimStep W s ⟨Function.update s.pc w ⟨r + 1, CPhase.wait⟩, s.lock⟩
  | acquire (s : SimSt W) (w : Fin W) (r : ℕ)
      (h : s.pc w = ⟨r + 1, CPhase.wait⟩) (hl : s.lock = none) :
      SimStep W s ⟨Function.update s.pc w ⟨r + 1, CPhase.crit⟩, some w⟩
  | release (s : SimSt W) (w : Fin W) (r : ℕ)
      (h : s.pc w = ⟨r + 1, CPhase.crit⟩) (hl : s.lock = some w) :
      SimStep W s ⟨Function.update s.pc w ⟨r, CPhase.par⟩, none⟩

/-- Initial state of the omp_02 parallel region over an iteration space of
`n` indices: every worker starts its statically assigned chunk in the
parallel phase and the lock is free. -/
def initSt (W n : ℕ) : SimSt W :=
  ⟨fun w => ⟨chunkSize n W w.val, CPhase.par⟩, none⟩

/-- The states reachable by interleaved execution from the initial state. -/
inductive SimReachable (W n : ℕ) : SimSt W → Prop where
  | init : SimReachable W n (initSt W n)
  | step {s s' : SimSt W} (hr : SimReachable W n s) (hs : SimStep W s s') :
      SimReachable W n s'

/-! ## Benchmark-runner event traces (omp_01 and omp_02 `main`)

The straight-line structure of each `main` is embedded as the list of its
observable events in program order; a parallel region contributes a
`regionBegin`/`regionEnd` pair (the `regionEnd` is the implicit barrier where
the last worker rejoins). -/

/-- Observable events of a `main` function, in program order. -/
inductive Ev where
  | timerStart
  | timerStop
  | regionBegin
  | regionEnd
  | configRead
  | serialCall
  | print
deriving DecidableEq

/-- Event trace of omp_01_amdahl.cpp `main`: a preliminary parallel region
reads the thread count (`#pragma omp single`), then the timer starts,
`serial_work` runs on the sole master thread, `parallel_work` opens the one
timed parallel region, the timer stops and the results are printed. -/
def omp01Run : List Ev :=
  [Ev.regionBegin, Ev.configRead, Ev.regionEnd, Ev.timerStart, Ev.serialCall,
   Ev.regionBegin, Ev.regionEnd, Ev.timerStop, Ev.print]

/-- Event trace of omp_02_mutex_bottleneck.cpp `main`: the timer starts, the
single parallel region runs (reading the thread count once inside it via
`#pragma omp single`), the timer stops and the results are printed. -/
def omp02Run : List Ev :=
  [Ev.timerStart, Ev.regionBegin, Ev.configRead, Ev.regionEnd, Ev.timerStop,
   Ev.print]

/-- The benchmark run proper: the events from the moment the wall-clock timer
is started (events before it are configuration reading). -/
def runSegment (evs : List Ev) : List Ev :=
  evs.dropWhile (fun e => !(e == Ev.timerStart))

/-- The per-run state machine of the Benchmark Runner. -/
inductive RunPhase where
  | notStarted
  | running
  | joined
  | reported
deriving DecidableEq

/-- Position of a run phase in the intended order
`notStarted → running → joined → reported`. -/
def phaseIdx : RunPhase → ℕ
  | RunPhase.notStarted => 0
  | RunPhase.running => 1
  | RunPhase.joined => 2
  | RunPhase.reported => 3

/-- Transition function of the run state machine: entering the timed parallel
region starts `running`, the implicit barrier at region end moves to
`joined`, printing the results moves to `reported`; every other event leaves
the phase unchanged. -/
def runStep : RunPhase → Ev → RunPhase
  | RunPhase.notStarted, Ev.regionBegin => RunPhase.running
  | RunPhase.running, Ev.regionEnd => RunPhase.joined
  | RunPhase.joined, Ev.print => RunPhase.reported
  | p, _ => p

/-- The sequence of run phases traversed by a benchmark run, starting in
`notStarted`. -/
def runTrace (evs : List Ev) : List RunPhase :=
  List.scanl runStep RunPhase.notStarted (runSegment evs)

/-! ## Basic lemmas about the accumulation loop and the static partition -/

theorem accumLoop_eq_sum {α : Type} [AddCommMonoid α] (f : ℕ → α) :
    ∀ (len a : ℕ) (s : α), accumLoop f a len s = s + ∑ i in Finset.Ico a (a + len), f i := by
  intro len
  induction len with
  | zero => intro a s; simp [accumLoop]
  | succ len ih =>
      intro a s
      rw [show accumLoop f a (len + 1) s = accumLoop f (a + 1) len (s + f a) from rfl, ih]
      rw [Finset.sum_eq_sum_Ico_succ_bot (by omega : a < a + (len + 1))]
      rw [show a + (len + 1) = (a + 1) + len by omega, add_assoc]

theorem accumFrom_eq_sum {α : Type} [AddCommMonoid α] (f : ℕ → α) (a len : ℕ) :
    accumFrom f a len = ∑ i in Finset.Ico a (a + len), f i := by
  rw [accumFrom, accumLoop_eq_sum, zero_add]

theorem chunkStart_zero (n T : ℕ) : chunkStart n T 0 = 0 := by
  simp [chunkStart]

theorem chunkStart_top (n T : ℕ) (hT : 1 ≤ T) : chunkStart n T T = n := by
  have h1 : n % T < T := Nat.mod_lt _ hT
  rw [chunkStart, min_eq_right h1.le, Nat.div_add_mod]

theorem chunkStart_le_succ (n T t : ℕ) : chunkStart n T t ≤ chunkStart n T (t + 1) := by
  have h1 : t * (n / T) ≤ (t + 1) * (n / T) := Nat.mul_le_mul_right _ (Nat.le_succ t)
  have h2 : min t (n % T) ≤ min (t + 1) (n % T) := min_le_min (Nat.le_succ t) le_rfl
  rw [chunkStart, chunkStart]
  omega

theorem chunkStart_mono (n T : ℕ) : Monotone (chunkStart n T) :=
  monotone_nat_of_le_succ (chunkStart_le_succ n T)

theorem chunkStart_add_size (n T t : ℕ) :
    chunkStart n T t + chunkSize n T t = chunkStart n T (t + 1) := by
  have h := chunkStart_le_succ n T t
  rw [chunkSize]
  omega

/-- Summing contiguous consecutive chunks `[g t, g (t+1))` for `t < T`
recovers the sum over the whole range `[g 0, g T)`. -/
theorem sum_chunks {α : Type} [AddCommMonoid α] (f : ℕ → α) (g : ℕ → ℕ)
    (hg : ∀ t, g t ≤ g (t + 1)) (T : ℕ) :
    ∑ t in Finset.range T, ∑ i in Finset.Ico (g t) (g (t + 1)), f i =
      ∑ i in Finset.Ico (g 0) (g T), f i := by
  induction T with
  | zero => simp
  | succ T ih =>
      rw [Finset.sum_range_succ, ih]
      exact Finset.sum_Ico_consecutive f ((monotone_nat_of_le_succ hg) (Nat.zero_le T)) (hg T)

/-- Closed form of `serial_work`: the sum of `sin(i * 1e-6)` over `i < n`. -/
theorem serial_work_eq_sum (n : ℤ) :
    serial_work n = ∑ i in Finset.range n.toNat, Real.sin (i * eps) := by
  rw [serial_work, accumFrom_eq_sum]
  rw [Finset.range_eq_Ico, Nat.zero_add]

/-- Closed form of `parallel_work` for any worker count `T ≥ 1`: the chunked
reduction collapses to the sum of `cos(i * 1e-6)` over `i < n`. -/
theorem parallel_work_eq_sum (T : ℕ) (hT : 1 ≤ T) (n : ℤ) :
    parallel_work T n = ∑ i in Finset.range n.toNat, Real.cos (i * eps) := by
  rw [parallel_work]
  have h1 : ∀ t ∈ Finset.range T,
      accumFrom (fun i => Real.cos (i * eps)) (chunkStart n.toNat T t) (chunkSize n.toNat T t) =
        ∑ i in Finset.Ico (chunkStart n.toNat T t) (chunkStart n.toNat T (t + 1)),
          Real.cos (i * eps) := by
    intro t _
    rw [accumFrom_eq_sum, chunkStart_add_size]
  rw [Finset.sum_congr rfl h1,
    sum_chunks (fun i => Real.cos (i * eps)) (chunkStart n.toNat T) (chunkStart_le_succ n.toNat T) T,
    chunkStart_zero, chunkStart_top n.toNat T hT, ← Finset.range_eq_Ico]

/-! ## Claim theorems -/

/-- C1: for every `n` and every worker count `T ≥ 1`, `parallel_work(n)`
accumulates `cos(i * 1e-6)` over the iteration space `0..n` by static
contiguous range partitioning with a commutative/associative `+` reduction,
and (under the exact-arithmetic idealisation of the doubles) the value
computed with `T` workers equals the value computed with 1 worker. -/
theorem parallel_work_thread_count_invariant (n : ℤ) (T : ℕ) (hT : 1 ≤ T) :
    parallel_work T n = parallel_work 1 n ∧
      parallel_work T n = ∑ i in Finset.range n.toNat, Real.cos (i * eps) := by
  have h1 := parallel_work_eq_sum T hT n
  have h2 := parallel_work_eq_sum 1 le_rfl n
  exact ⟨h1.trans h2.symm, h1⟩

theorem parallel_work_thread_count_invariant_witness :
    parallel_work 3 7 = parallel_work 1 7 ∧
      parallel_work 3 7 = ∑ i in Finset.range (7 : ℤ).toNat, Real.cos (i * eps) :=
  parallel_work_thread_count_invariant 7 3 (by decide)

/-- C2: for every fixed `n`, `serial_work(n)` accumulates `sin(i * 1e-6)`
over the iteration space `0..n` on a single thread in strict ascending index
order (it is literally the ascending `accumLoop`), is a pure function of `n`
alone, and yields the same value whatever thread count the benchmark is
configured with. -/
theorem serial_work_deterministic (n : ℤ) :
    serial_work n = accumLoop (fun i => Real.sin (i * eps)) 0 n.toNat 0 ∧
      serial_work n = ∑ i in Finset.range n.toNat, Real.sin (i * eps) ∧
      ∀ T1 T2 : ℕ, serialWorkUnder T1 n = serialWorkUnder T2 n :=
  ⟨rfl, serial_work_eq_sum n, fun _ _ => rfl⟩

/-- C4: under the `schedule(static)` partition used by both `parallel_work`
and the simulator loop of omp_02, every index `i` of the iteration space
`0..n-1` lies in the contiguous subrange of exactly one worker `t < T`:
no index is skipped and none is assigned twice. -/
theorem static_partition_exactly_once (n T i : ℕ) (hT : 1 ≤ T) (hi : i < n) :
    ∃! t : ℕ, t < T ∧ i ∈ Finset.Ico (chunkStart n T t) (chunkStart n T (t + 1)) := by
  have hex : ∀ (T' i' : ℕ), i' < chunkStart n T T' →
      ∃ t, t < T' ∧ chunkStart n T t ≤ i' ∧ i' < chunkStart n T (t + 1) := by
    intro T'
    induction T' with
    | zero =>
        intro i' h1
        rw [chunkStart_zero] at h1
        omega
    | succ T' ih =>
        intro i' h1
        by_cases h : chunkStart n T T' ≤ i'
        · exact ⟨T', Nat.lt_succ_self T', h, h1⟩
        · obtain ⟨t, ht, h2, h3⟩ := ih i' (by omega)
          exact ⟨t, by omega, h2, h3⟩
  obtain ⟨t, ht, h1, h2⟩ := hex T i (by rw [chunkStart_top n T hT]; exact hi)
  refine ⟨t, ⟨ht, Finset.mem_Ico.mpr ⟨h1, h2⟩⟩, ?_⟩
  rintro t' ⟨ht', hmem⟩
  obtain ⟨h1', h2'⟩ := Finset.mem_Ico.mp hmem
  by_contra hne
  rcases Nat.lt_or_ge t' t with hlt | hge
  · have := chunkStart_mono n T (show t' + 1 ≤ t from hlt)
    omega
  · have hlt : t < t' := by omega
    have := chunkStart_mono n T (show t + 1 ≤ t' from hlt)
    omega

theorem static_partition_exactly_once_witness :
    ∃! t : ℕ, t < 3 ∧ (4 : ℕ) ∈ Finset.Ico (chunkStart 10 3 t) (chunkStart 10 3 (t + 1)) :=
  static_partition_exactly_once 10 3 4 (by decide) (by decide)

/-- C10: for every `n ≤ 0` both workload loops run zero iterations, so
`serial_work(n)` and `parallel_work(n)` (under any worker count) return
exactly 0. -/
theorem workloads_empty_range_zero (n : ℤ) (hn : n ≤ 0) :
    serial_work n = 0 ∧ ∀ T : ℕ, parallel_work T n = 0 := by
  have h0 : n.toNat = 0 := Int.toNat_of_nonpos hn
  constructor
  · rw [serial_work_eq_sum, h0]
    simp
  · intro T
    rw [parallel_work, h0]
    refine Finset.sum_eq_zero ?_
    intro t _
    have hcs : chunkSize 0 T t = 0 := by
      simp [chunkSize, chunkStart]
    rw [hcs]
    rfl

theorem workloads_empty_range_zero_witness :
    serial_work (-3) = 0 ∧ ∀ T : ℕ, parallel_work T (-3) = 0 :=
  workloads_empty_range_zero (-3) (by decide)

/-- Lock-ownership invariant of the omp_02 parallel region: in every
reachable state, a worker inside the critical section is the lock holder. -/
theorem crit_implies_lock {W n : ℕ} {s : SimSt W} (hr : SimReachable W n s) :
    ∀ v : Fin W, (s.pc v).phase = CPhase.crit → s.lock = some v := by
  induction hr with
  | init =>
      intro v hv
      simp [initSt] at hv
  | step hr hs ih =>
      cases hs with
      | finishPar w r h =>
          intro v hv
          dsimp only at hv ⊢
          by_cases hvw : v = w
          · subst hvw
            rw [Function.update_same] at hv
            simp at hv
          · rw [Function.update_noteq hvw] at hv
            exact ih v hv
      | acquire w r h hl =>
          intro v hv
          dsimp only at hv ⊢
          by_cases hvw : v = w
          · subst hvw; rfl
          · rw [Function.update_noteq hvw] at hv
            have h2 := ih v hv
            rw [hl] at h2
            exact absurd h2 (by simp)
      | release w r h hl =>
          intro v hv
          dsimp only at hv ⊢
          by_cases hvw : v = w
          · subst hvw
            rw [Function.update_same] at hv
            simp at hv
          · rw [Function.update_noteq hvw] at hv
            have h2 := ih v hv
            rw [hl] at h2
            exact absurd (Option.some.inj h2) (fun e => hvw e.symm)

/-- C3: in the Critical-Resource Simulator, at most one worker occupies the
shared slot at any instant: in every reachable state of the interleaved
execution, no two distinct workers are both inside the critical section. -/
theorem critical_section_mutual_exclusion {W n : ℕ} {s : SimSt W}
    (hr : SimReachable W n s) (w1 w2 : Fin W) (hne : w1 ≠ w2) :
    ¬((s.pc w1).phase = CPhase.crit ∧ (s.pc w2).phase = CPhase.crit) := by
  rintro ⟨h1, h2⟩
  have e1 := crit_implies_lock hr w1 h1
  have e2 := crit_implies_lock hr w2 h2
  exact hne (Option.some.inj (e1.symm.trans e2))

theorem critical_section_mutual_exclusion_witness :
    ¬(((initSt 2 iters).pc 0).phase = CPhase.crit ∧
        ((initSt 2 iters).pc 1).phase = CPhase.crit) :=
  critical_section_mutual_exclusion SimReachable.init 0 1 (by decide)

/-- C5: a Probe run with `T ≥ 1` workers emits, in any interleaving, exactly
`T` report lines whose worker identities are pairwise distinct and form
exactly the set `{0, ..., T-1}`, every line carrying thread count `T`. -/
theorem probe_output_identities (T : ℕ) (l : List (ℕ × ℕ)) (_hT : 1 ≤ T)
    (hperm : l.Perm (probeList T)) :
    l.length = T ∧ (l.map Prod.fst).Nodup ∧
      (∀ p ∈ l, p.1 < T ∧ p.2 = T) ∧
      (l.map Prod.fst).toFinset = Finset.range T := by
  have hmapp : (probeList T).map Prod.fst = List.range T := by
    rw [probeList, List.map_map]
    rw [show (Prod.fst ∘ fun k : ℕ => (k, T)) = id from rfl, List.map_id]
  have hpm : (l.map Prod.fst).Perm (List.range T) := by
    rw [← hmapp]
    exact hperm.map Prod.fst
  refine ⟨?_, ?_, ?_, ?_⟩
  · rw [hperm.length_eq, probeList, List.length_map, List.length_range]
  · exact hpm.nodup_iff.mpr (List.nodup_range T)
  · intro p hp
    have hp' : p ∈ probeList T := hperm.mem_iff.mp hp
    rw [probeList, List.mem_map] at hp'
    obtain ⟨k, hk, hkp⟩ := hp'
    rw [← hkp]
    exact ⟨List.mem_range.mp hk, rfl⟩
  · rw [List.toFinset_eq_of_perm _ _ hpm]
    ext k
    simp

theorem probe_output_identities_witness :
    ([(2, 4), (0, 4), (3, 4), (1, 4)] : List (ℕ × ℕ)).length = 4 ∧
      (([(2, 4), (0, 4), (3, 4), (1, 4)] : List (ℕ × ℕ)).map Prod.fst).Nodup ∧
      (∀ p ∈ ([(2, 4), (0, 4), (3, 4), (1, 4)] : List (ℕ × ℕ)), p.1 < 4 ∧ p.2 = 4) ∧
      (([(2, 4), (0, 4), (3, 4), (1, 4)] : List (ℕ × ℕ)).map Prod.fst).toFinset =
        Finset.range 4 :=
  probe_output_identities 4 [(2, 4), (0, 4), (3, 4), (1, 4)] (by decide) (by decide)

/-- C8 counterexample: already with 2 workers the warmup parallel region
emits 2 probe reports — one per worker — not exactly one per region. -/
theorem probe_two_workers_two_reports :
    (probeList 2).length = 2 ∧ ¬((probeList 2).length = 1) := by
  decide

/-- C8 amended: the Thread Context Probe reports the
(ThreadCount, WorkerIdentity) information exactly once per worker — `T`
reports per parallel region, every worker's pair present and none
duplicated. -/
theorem probe_reports_once_per_worker (T : ℕ) :
    (probeList T).length = T ∧ (probeList T).Nodup ∧
      ∀ k, k < T → (k, T) ∈ probeList T := by
  have hnd : (probeList T).Nodup := by
    refine List.Nodup.map ?_ (List.nodup_range T)
    intro a b hab
    exact congrArg Prod.fst hab
  refine ⟨by simp [probeList], hnd, ?_⟩
  intro k hk
  simp [probeList, hk]

theorem probe_reports_once_per_worker_witness :
    (probeList 2).length = 2 ∧ (probeList 2).Nodup ∧
      ∀ k, k < 2 → (k, 2) ∈ probeList 2 :=
  probe_reports_once_per_worker 2

/-- C6: in both benchmark programs the benchmark run (the events from the
moment the timer starts) enters exactly one parallel region, and the run
phases traverse `notStarted → running → joined → reported` in
nondecreasing order — in particular no run reenters `running` after
`joined` — ending in `reported`. -/
theorem runner_single_region_state_machine :
    ((runSegment omp01Run).count Ev.regionBegin = 1 ∧
      (runSegment omp02Run).count Ev.regionBegin = 1) ∧
    (List.Chain' (fun p q => phaseIdx p ≤ phaseIdx q) (runTrace omp01Run) ∧
      List.Chain' (fun p q => phaseIdx p ≤ phaseIdx q) (runTrace omp02Run)) ∧
    (RunPhase.running ∈ runTrace omp01Run ∧ RunPhase.joined ∈ runTrace omp01Run ∧
      RunPhase.running ∈ runTrace omp02Run ∧ RunPhase.joined ∈ runTrace omp02Run) ∧
    ((runTrace omp01Run).getLast? = some RunPhase.reported ∧
      (runTrace omp02Run).getLast? = some RunPhase.reported) := by
  have t1 : runTrace omp01Run = [RunPhase.notStarted, RunPhase.notStarted, RunPhase.notStarted,
      RunPhase.running, RunPhase.joined, RunPhase.joined, RunPhase.reported] := rfl
  have t2 : runTrace omp02Run = [RunPhase.notStarted, RunPhase.notStarted, RunPhase.running,
      RunPhase.running, RunPhase.joined, RunPhase.joined, RunPhase.reported] := rfl
  refine ⟨⟨by decide, by decide⟩, ⟨?_, ?_⟩, ⟨?_, ?_, ?_, ?_⟩, ⟨?_, ?_⟩⟩
  · rw [t1]
    simp [List.chain'_cons, phaseIdx]
  · rw [t2]
    simp [List.chain'_cons, phaseIdx]
  · rw [t1]
    simp
  · rw [t1]
    simp
  · rw [t2]
    simp
  · rw [t2]
    simp
  · rw [t1]
    rfl
  · rw [t2]
    rfl

/-- C7: in both benchmark programs the wall-clock timer is started strictly
before the timed parallel region begins and stopped strictly after its
implicit barrier (the last worker rejoining), so for every monotone clock
the reported elapsed time is at least the time spanned by the parallel
region. -/
theorem elapsed_time_spans_region (clock : ℕ → ℝ) (hc : Monotone clock) :
    (((runSegment omp01Run).indexOf Ev.timerStart < (runSegment omp01Run).indexOf Ev.regionBegin ∧
      (runSegment omp01Run).indexOf Ev.regionBegin < (runSegment omp01Run).indexOf Ev.regionEnd ∧
      (runSegment omp01Run).indexOf Ev.regionEnd < (runSegment omp01Run).indexOf Ev.timerStop) ∧
     ((runSegment omp02Run).indexOf Ev.timerStart < (runSegment omp02Run).indexOf Ev.regionBegin ∧
      (runSegment omp02Run).indexOf Ev.regionBegin < (runSegment omp02Run).indexOf Ev.regionEnd ∧
      (runSegment omp02Run).indexOf Ev.regionEnd < (runSegment omp02Run).indexOf Ev.timerStop)) ∧
    (clock ((runSegment omp01Run).indexOf Ev.regionEnd) -
        clock ((runSegment omp01Run).indexOf Ev.regionBegin) ≤
      clock ((runSegment omp01Run).indexOf Ev.timerStop) -
        clock ((runSegment omp01Run).indexOf Ev.timerStart)) ∧
    (clock ((runSegment omp02Run).indexOf Ev.regionEnd) -
        clock ((runSegment omp02Run).indexOf Ev.regionBegin) ≤
      clock ((runSegment omp02Run).indexOf Ev.timerStop) -
        clock ((runSegment omp02Run).indexOf Ev.timerStart)) := by
  have e10 : (runSegment omp01Run).indexOf Ev.timerStart = 0 := by decide
  have e12 : (runSegment omp01Run).indexOf Ev.regionBegin = 2 := by decide
  have e13 : (runSegment omp01Run).indexOf Ev.regionEnd = 3 := by decide
  have e14 : (runSegment omp01Run).indexOf Ev.timerStop = 4 := by decide
  have e20 : (runSegment omp02Run).indexOf Ev.timerStart = 0 := by decide
  have e21 : (runSegment omp02Run).indexOf Ev.regionBegin = 1 := by decide
  have e23 : (runSegment omp02Run).indexOf Ev.regionEnd = 3 := by decide
  have e24 : (runSegment omp02Run).indexOf Ev.timerStop = 4 := by decide
  rw [e10, e12, e13, e14, e20, e21, e23, e24]
  have h02 := hc (show (0 : ℕ) ≤ 2 by omega)
  have h34 := hc (show (3 : ℕ) ≤ 4 by omega)
  have h01 := hc (show (0 : ℕ) ≤ 1 by omega)
  refine ⟨⟨⟨?_, ?_, ?_⟩, ⟨?_, ?_, ?_⟩⟩, ?_, ?_⟩ <;> first
    | omega
    | linarith

theorem elapsed_time_spans_region_witness :
    (((runSegment omp01Run).indexOf Ev.timerStart < (runSegment omp01Run).indexOf Ev.regionBegin ∧
      (runSegment omp01Run).indexOf Ev.regionBegin < (runSegment omp01Run).indexOf Ev.regionEnd ∧
      (runSegment omp01Run).indexOf Ev.regionEnd < (runSegment omp01Run).indexOf Ev.timerStop) ∧
     ((runSegment omp02Run).indexOf Ev.timerStart < (runSegment omp02Run).indexOf Ev.regionBegin ∧
      (runSegment omp02Run).indexOf Ev.regionBegin < (runSegment omp02Run).indexOf Ev.regionEnd ∧
      (runSegment omp02Run).indexOf Ev.regionEnd < (runSegment omp02Run).indexOf Ev.timerStop)) ∧
    (((runSegment omp01Run).indexOf Ev.regionEnd : ℝ) -
        ((runSegment omp01Run).indexOf Ev.regionBegin : ℝ) ≤
      ((runSegment omp01Run).indexOf Ev.timerStop : ℝ) -
        ((runSegment omp01Run).indexOf Ev.timerStart : ℝ)) ∧
    (((runSegment omp02Run).indexOf Ev.regionEnd : ℝ) -
        ((runSegment omp02Run).indexOf Ev.regionBegin : ℝ) ≤
      ((runSegment omp02Run).indexOf Ev.timerStop : ℝ) -
        ((runSegment omp02Run).indexOf Ev.timerStart : ℝ)) :=
  elapsed_time_spans_region (fun k => (k : ℝ)) Nat.mono_cast

/-- Points of a finite set that are pairwise at least `d` apart and whose
`d`-length intervals all fit inside `[0, B]` number at most `B / d`: the sum
of the interval lengths is bounded by the window length. -/
theorem separated_points_bound (d : ℝ) (_hd : 0 < d) (S : Finset ℝ) :
    ∀ B : ℝ, 0 ≤ B → (∀ x ∈ S, ∀ y ∈ S, x ≠ y → d ≤ |x - y|) →
      (∀ x ∈ S, 0 ≤ x ∧ x + d ≤ B) → (S.card : ℝ) * d ≤ B := by
  classical
  induction S using Finset.induction_on_max with
  | h0 =>
      intro B hB _ _
      simpa using hB
  | step a s ha ih =>
      intro B hB hsep hin
      have haS : a ∈ insert a s := Finset.mem_insert_self a s
      have h0a : 0 ≤ a := (hin a haS).1
      have hs_in : ∀ x ∈ s, 0 ≤ x ∧ x + d ≤ a := by
        intro x hx
        have hxa : x < a := ha x hx
        have hsx := hsep x (Finset.mem_insert_of_mem hx) a haS (ne_of_lt hxa)
        have habs : |x - a| = a - x := by
          rw [abs_of_nonpos (by linarith)]
          ring
        exact ⟨(hin x (Finset.mem_insert_of_mem hx)).1, by rw [habs] at hsx; linarith⟩
      have hs_sep : ∀ x ∈ s, ∀ y ∈ s, x ≠ y → d ≤ |x - y| := fun x hx y hy hxy =>
        hsep x (Finset.mem_insert_of_mem hx) y (Finset.mem_insert_of_mem hy) hxy
      have hih := ih a h0a hs_sep hs_in
      have hanotin : a ∉ s := fun h => lt_irrefl a (ha a h)
      have haB : a + d ≤ B := (hin a haS).2
      rw [Finset.card_insert_of_not_mem hanotin]
      push_cast
      have hexp : ((s.card : ℝ) + 1) * d = (s.card : ℝ) * d + d := by ring
      rw [hexp]
      linarith

/-- C9: in the Critical-Resource Simulator with its fixed `iters = 200`
iterations and `serial_ms = 5` ms serialized phase, the wall-clock time of
any execution is at least `iters * serial_ms`: mutual exclusion over the
constant-length serialized sleep keeps any two critical-section entry
instants at least `serial_ms` apart, every serialized interval lies inside
the measured window `[0, wall]`, so the serialized phase is a lower bound on
wall time regardless of the worker count. -/
theorem contention_serial_floor (c : ℕ → ℝ) (wall : ℝ) (hwall : 0 ≤ wall)
    (hpos : ∀ i, i < iters → 0 ≤ c i)
    (hfit : ∀ i, i < iters → c i + serial_ms ≤ wall)
    (hsep : ∀ i j, i < iters → j < iters → i ≠ j → serial_ms ≤ |c i - c j|) :
    (iters : ℝ) * serial_ms ≤ wall := by
  classical
  have hd : (0 : ℝ) < serial_ms := by
    rw [serial_ms]
    norm_num
  have hinj : Set.InjOn c (Finset.range iters) := by
    intro i hi j hj hij
    by_contra hne
    have hi' : i < iters := by simpa using hi
    have hj' : j < iters := by simpa using hj
    have h1 := hsep i j hi' hj' hne
    rw [hij, sub_self, abs_zero] at h1
    linarith
  have hcard : ((Finset.range iters).image c).card = iters := by
    rw [Finset.card_image_of_injOn hinj, Finset.card_range]
  have hbound := separated_points_bound serial_ms hd ((Finset.range iters).image c) wall hwall
    ?_ ?_
  · rw [hcard] at hbound
    exact hbound
  · intro x hx y hy hxy
    obtain ⟨i, hi, rfl⟩ := Finset.mem_image.mp hx
    obtain ⟨j, hj, rfl⟩ := Finset.mem_image.mp hy
    exact hsep i j (Finset.mem_range.mp hi) (Finset.mem_range.mp hj)
      (fun e => hxy (by rw [e]))
  · intro x hx
    obtain ⟨i, hi, rfl⟩ := Finset.mem_image.mp hx
    exact ⟨hpos i (Finset.mem_range.mp hi), hfit i (Finset.mem_range.mp hi)⟩

theorem contention_serial_floor_witness :
    (iters : ℝ) * serial_ms ≤ 1002 := by
  have hsep : ∀ i j : ℕ, i < iters → j < iters → i ≠ j →
      serial_ms ≤ |(2 + 5 * (i : ℝ)) - (2 + 5 * (j : ℝ))| := by
    intro i j _ _ hne
    rw [serial_ms]
    rcases lt_or_gt_of_ne hne with h | h
    · have hij : (i : ℝ) + 1 ≤ (j : ℝ) := by exact_mod_cast h
      have habs : |(2 + 5 * (i : ℝ)) - (2 + 5 * (j : ℝ))| = 5 * (j : ℝ) - 5 * (i : ℝ) := by
        rw [abs_of_nonpos (by linarith)]
        ring
      rw [habs]
      linarith
    · have hij : (j : ℝ) + 1 ≤ (i : ℝ) := by exact_mod_cast h
      have habs : |(2 + 5 * (i : ℝ)) - (2 + 5 * (j : ℝ))| = 5 * (i : ℝ) - 5 * (j : ℝ) := by
        rw [abs_of_nonneg (by linarith)]
        ring
      rw [habs]
      linarith
  refine contention_serial_floor (fun i => 2 + 5 * (i : ℝ)) 1002 (by norm_num) ?_ ?_ hsep
  · intro i _
    positivity
  · intro i hi
    have hi' : (i : ℝ) ≤ 199 := by
      have : i ≤ 199 := by
        rw [iters] at hi
        omega
      exact_mod_cast this
    rw [serial_ms]
    show (2 : ℝ) + 5 * (i : ℝ) + 5 ≤ 1002
    linarith

end OmpLabs
